import Mathlib

/-
Verification of the edge-conflict constraint handler of BCP-MAPF
(src/bcp/ConstraintHandler_EdgeConflicts.cpp).

The development shallowly embeds the checker (edge_conflicts_check), the
separator (edge_conflicts_separate), cut creation (edge_conflicts_create_cut),
cut extension (edge_conflicts_add_var) and the transformation hook
(consTransEdgeConflicts).  Weights are rationals; the solver framework's
tolerance predicates (SCIPisPositive, SCIPisGT) are embedded with an explicit
tolerance parameter; the hash tables keyed by EdgeTime are embedded as
association lists accumulated in insertion order.
-/

namespace BCP

/-- The movement directions of the grid, plus the distinguished WAIT action. -/
inductive Direction where
  | NORTH
  | SOUTH
  | EAST
  | WEST
  | WAIT
deriving DecidableEq

/-- An edge of the environment: an origin node id and a direction. -/
structure Edge where
  n : Nat
  d : Direction
deriving DecidableEq

/-- A space-time key: an (undirected or wait) edge together with a time step. -/
structure EdgeTime where
  e : Edge
  t : Nat
deriving DecidableEq

/-- A path variable: the owning agent, the path (ordered list of edges, one per
time step), and the current LP solution value of the variable. -/
structure PathVar where
  agent : Nat
  path : List Edge
  val : ℚ
deriving DecidableEq

/-- The SCIP result codes relevant to this constraint handler. -/
inductive SCIPResult where
  | FEASIBLE
  | INFEASIBLE
  | DIDNOTFIND
  | SEPARATED
  | CUTOFF
deriving DecidableEq

/-- The solver's numeric context: the floating-point comparison tolerance. -/
structure SCIPTol where
  eps : ℚ

/-- Tolerance-aware positivity test (SCIPisPositive): x is larger than eps. -/
def SCIPisPositive (s : SCIPTol) (x : ℚ) : Bool :=
  decide (s.eps < x)

/-- Tolerance-aware strict comparison (SCIPisGT): x exceeds y by more than eps. -/
def SCIPisGT (s : SCIPTol) (x y : ℚ) : Bool :=
  decide (s.eps < x - y)

/-- Modelled from the spec: the environment map is an external collaborator
(its source is not part of the embedded file) exposing, per the spec's
external-interface section, the canonical undirected-edge key of a directed
edge and the opposite-direction edge of the same undirected edge. -/
structure Map where
  get_undirected_edge : Edge → Edge
  get_opposite_edge : Edge → Edge

/-- Modelled from the spec: a concrete grid-shaped instance of the external
map interface, used for concrete evaluations.  On a grid of the given width,
NORTH subtracts the width from the node id, SOUTH adds it, EAST adds one and
WEST subtracts one; the canonical undirected representative of an edge points
SOUTH or EAST. -/
def gridMap (width : Nat) : Map where
  get_undirected_edge := fun e =>
    match e.d with
    | Direction.NORTH => ⟨e.n - width, Direction.SOUTH⟩
    | Direction.WEST => ⟨e.n - 1, Direction.EAST⟩
    | _ => e
  get_opposite_edge := fun e =>
    match e.d with
    | Direction.NORTH => ⟨e.n - width, Direction.SOUTH⟩
    | Direction.SOUTH => ⟨e.n + width, Direction.NORTH⟩
    | Direction.EAST => ⟨e.n + 1, Direction.WEST⟩
    | Direction.WEST => ⟨e.n - 1, Direction.EAST⟩
    | Direction.WAIT => e

/-- Indexing into a path, with a default edge standing for the C++ contract
that indices are in bounds for well-formed paths. -/
def pget (path : List Edge) (t : Nat) : Edge :=
  path.getD t ⟨0, Direction.WAIT⟩

/-- The HashTable of accumulated weights keyed by EdgeTime, embedded as an
association list in insertion order. -/
abbrev UsageTable := List (EdgeTime × ℚ)

/-- Adding a weight to the entry of a key (operator[] += in the source):
update the first entry with this key, or append a fresh entry. -/
def tableAdd : UsageTable → EdgeTime → ℚ → UsageTable
  | [], et, v => [(et, v)]
  | (k, w) :: rest, et, v =>
      if k = et then (k, w + v) :: rest else (k, w) :: tableAdd rest et v

/-- Reading the accumulated weight of a key, zero when absent (the source's
find-with-default-0.0 lookup). -/
def tableGet : UsageTable → EdgeTime → ℚ
  | [], _ => 0
  | (k, w) :: rest, et => if k = et then w else tableGet rest et

theorem tableGet_tableAdd (tbl : UsageTable) (et k : EdgeTime) (v : ℚ) :
    tableGet (tableAdd tbl et v) k =
      if k = et then tableGet tbl k + v else tableGet tbl k := by
  induction tbl with
  | nil =>
      simp only [tableAdd, tableGet]
      by_cases h : et = k
      · subst h
        simp
      · have h' : ¬ k = et := fun hh => h hh.symm
        simp [h, h']
  | cons hd rest ih =>
      obtain ⟨a, w⟩ := hd
      simp only [tableAdd]
      by_cases ha : a = et
      · subst ha
        simp only [if_pos rfl, tableGet]
        by_cases hk : a = k
        · subst hk
          simp
        · have hk' : ¬ k = a := fun hh => hk hh.symm
          simp [hk, hk']
      · simp only [if_neg ha, tableGet, ih]
        by_cases hak : a = k
        · have hket : ¬ k = et := fun hh => ha (hak.trans hh)
          simp [hak, hket]
        · simp [hak]

theorem table_mem_get_or_zero (tbl : UsageTable) (k : EdgeTime) :
    (k, tableGet tbl k) ∈ tbl ∨ tableGet tbl k = 0 := by
  induction tbl with
  | nil => simp [tableGet]
  | cons hd rest ih =>
      obtain ⟨a, w⟩ := hd
      by_cases hk : a = k
      · subst hk
        left
        simp [tableGet]
      · simp only [tableGet, if_neg hk]
        rcases ih with h | h
        · exact Or.inl (List.mem_cons_of_mem _ h)
        · exact Or.inr h

/-- Keys of a table after tableAdd: unchanged when the key was present,
appended at the end otherwise. -/
theorem keys_tableAdd (tbl : UsageTable) (et : EdgeTime) (v : ℚ) :
    (tableAdd tbl et v).map Prod.fst =
      if et ∈ tbl.map Prod.fst then tbl.map Prod.fst else tbl.map Prod.fst ++ [et] := by
  induction tbl with
  | nil => simp [tableAdd]
  | cons hd rest ih =>
      obtain ⟨a, w⟩ := hd
      by_cases ha : a = et
      · subst ha
        simp [tableAdd]
      · have hne : ¬ et = a := fun h => ha h.symm
        by_cases hmem : et ∈ rest.map Prod.fst <;>
          simp [tableAdd, ha, hne, hmem, ih]

theorem nodup_keys_tableAdd (tbl : UsageTable) (et : EdgeTime) (v : ℚ)
    (h : (tbl.map Prod.fst).Nodup) : ((tableAdd tbl et v).map Prod.fst).Nodup := by
  rw [keys_tableAdd]
  by_cases hmem : et ∈ tbl.map Prod.fst
  · simpa [hmem]
  · simp only [if_neg hmem]
    rw [List.nodup_append]
    refine ⟨h, List.nodup_singleton et, ?_⟩
    intro x hx hx2
    rw [List.mem_singleton] at hx2
    subst hx2
    exact hmem hx

theorem tableGet_of_mem_nodup {tbl : UsageTable} {k : EdgeTime} {w : ℚ}
    (h : (tbl.map Prod.fst).Nodup) (hm : (k, w) ∈ tbl) : tableGet tbl k = w := by
  induction tbl with
  | nil => cases hm
  | cons hd rest ih =>
      obtain ⟨a, b⟩ := hd
      have h' : a ∉ rest.map Prod.fst ∧ (rest.map Prod.fst).Nodup := by
        simp only [List.map_cons] at h
        exact List.nodup_cons.mp h
      rcases List.mem_cons.mp hm with heq | hmem
      · cases heq
        simp [tableGet]
      · have hk : ¬ a = k := by
          intro hak
          exact h'.1 (by rw [hak]; exact List.mem_map_of_mem Prod.fst hmem)
        simp only [tableGet, if_neg hk]
        exact ih h'.2 hmem

theorem mem_keys_get {tbl : UsageTable} {k : EdgeTime}
    (h : k ∈ tbl.map Prod.fst) : (k, tableGet tbl k) ∈ tbl := by
  induction tbl with
  | nil => simp at h
  | cons hd rest ih =>
      obtain ⟨a, b⟩ := hd
      by_cases hk : a = k
      · subst hk
        simp [tableGet]
      · have h' : k ∈ rest.map Prod.fst := by
          simp only [List.map_cons, List.mem_cons] at h
          rcases h with h | h
          · exact absurd h.symm hk
          · exact h
        simp only [tableGet, if_neg hk]
        exact List.mem_cons_of_mem _ (ih h')

/-- One iteration of the move-usage loop bodies (checker lines 229-236 and
separator lines 332-339 of the source): at time t, a non-wait step adds the
variable value to the undirected-edge-time entry. -/
def move_step (m : Map) (val : ℚ) (path : List Edge) (tbl : UsageTable) (t : Nat) : UsageTable :=
  if (pget path t).d ≠ Direction.WAIT then
    tableAdd tbl ⟨m.get_undirected_edge (pget path t), t⟩ val
  else tbl

/-- One variable of the checker's usage loop (source lines 214-237): variables
with tolerance-positive value contribute each non-wait step. -/
def check_var_step (s : SCIPTol) (m : Map) (tbl : UsageTable) (var : PathVar) : UsageTable :=
  if SCIPisPositive s var.val then
    (List.range (var.path.length - 1)).foldl (move_step m var.val var.path) tbl
  else tbl

/-- The checker's edge_times_used table (source lines 213-237). -/
def check_build (s : SCIPTol) (m : Map) (vars : List PathVar) : UsageTable :=
  vars.foldl (check_var_step s m) []

/-- The Conflict Checker, edge_conflicts_check (source lines 194-262): build
move usage over positive variables, report INFEASIBLE as soon as an entry
exceeds 1 under tolerance, FEASIBLE otherwise. -/
def edge_conflicts_check (s : SCIPTol) (m : Map) (vars : List PathVar) : SCIPResult :=
  if (check_build s m vars).any (fun kv => SCIPisGT s kv.2 1) then
    SCIPResult.INFEASIBLE
  else SCIPResult.FEASIBLE

/-- The separator's makespan computation (source lines 293-310). -/
def computeMakespan (s : SCIPTol) (vars : List PathVar) : Nat :=
  vars.foldl
    (fun makespan var =>
      if makespan < var.path.length ∧ SCIPisPositive s var.val = true then var.path.length
      else makespan)
    0

/-- One iteration of the separator's first per-path loop (source lines
332-348): a non-wait step feeds the move table, a wait step feeds the wait
table under its own wait edge. -/
def sep_pair_step (m : Map) (val : ℚ) (path : List Edge) (tb : UsageTable × UsageTable)
    (t : Nat) : UsageTable × UsageTable :=
  if (pget path t).d ≠ Direction.WAIT then
    (tableAdd tb.1 ⟨m.get_undirected_edge (pget path t), t⟩ val, tb.2)
  else
    (tb.1, tableAdd tb.2 ⟨pget path t, t⟩ val)

/-- One iteration of the separator's synthetic wait tail loop (source lines
352-357): the final node is occupied as a wait edge. -/
def wait_tail_step (val : ℚ) (n : Nat) (wt : UsageTable) (t : Nat) : UsageTable :=
  tableAdd wt ⟨⟨n, Direction.WAIT⟩, t⟩ val

/-- The list of times a ≤ t < b walked by the separator's tail loop. -/
def rangeFromTo (a b : Nat) : List Nat :=
  (List.range (b - a)).map (a + ·)

/-- One variable of the separator's usage loops (source lines 317-360):
positive variables contribute every step before the last, then wait at the
final node from the end of the path while t < makespan - 1. -/
def sep_var_step (s : SCIPTol) (m : Map) (makespan : Nat) (tb : UsageTable × UsageTable)
    (var : PathVar) : UsageTable × UsageTable :=
  if SCIPisPositive s var.val then
    let tb2 := (List.range (var.path.length - 1)).foldl (sep_pair_step m var.val var.path) tb
    let n := (pget var.path (var.path.length - 1)).n
    (tb2.1,
     (rangeFromTo (var.path.length - 1) (makespan - 1)).foldl (wait_tail_step var.val n) tb2.2)
  else tb

/-- The separator's pair of usage tables, move_edges_used and wait_edges_used
(source lines 312-360). -/
def sep_tables (s : SCIPTol) (m : Map) (vars : List PathVar) : UsageTable × UsageTable :=
  vars.foldl (sep_var_step s m (computeMakespan s vars)) ([], [])

/-- Master lemma for the table-building loops: folding a step that, at each
time t of a duplicate-free time list, conditionally adds val at a key whose
time component is t itself, adds val to the entry of k exactly when k's time
is walked, the condition holds there and the key built there is k. -/
theorem tableGet_foldl_add (step : UsageTable → Nat → UsageTable)
    (c : Nat → Bool) (κ : Nat → Edge) (val : ℚ)
    (hstep : ∀ tb t, step tb t = if c t then tableAdd tb ⟨κ t, t⟩ val else tb) :
    ∀ (ts : List Nat), ts.Nodup → ∀ (tbl : UsageTable) (k : EdgeTime),
      tableGet (ts.foldl step tbl) k =
        tableGet tbl k + (if k.t ∈ ts ∧ c k.t = true ∧ κ k.t = k.e then val else 0) := by
  intro ts
  induction ts with
  | nil =>
      intro _ tbl k
      simp
  | cons t0 rest ih =>
      intro hnd tbl k
      have hnd' := List.nodup_cons.mp hnd
      rw [List.foldl_cons, ih hnd'.2]
      rw [hstep]
      by_cases h0 : k.t = t0
      · have hrest : k.t ∉ rest := by rw [h0]; exact hnd'.1
        by_cases hc : c t0 = true
        · rw [if_pos hc, tableGet_tableAdd]
          by_cases hκ : κ t0 = k.e
          · have hkey : k = ⟨κ t0, t0⟩ := by
              cases k
              simp_all
            rw [if_pos hkey]
            have : k.t ∈ t0 :: rest ∧ c k.t = true ∧ κ k.t = k.e := by
              refine ⟨by simp [h0], by rw [h0]; exact hc, by rw [h0]; exact hκ⟩
            rw [if_pos this, if_neg (by intro hh; exact hrest hh.1)]
            ring
          · have hkey : ¬ k = ⟨κ t0, t0⟩ := by
              intro hh
              exact hκ (by rw [hh])
            rw [if_neg hkey]
            rw [if_neg (by intro hh; exact hrest hh.1),
                if_neg (by intro hh; exact hκ (by rw [← h0]; exact hh.2.2))]
        · rw [if_neg hc]
          rw [if_neg (by intro hh; exact hrest hh.1),
              if_neg (by intro hh; exact hc (by rw [← h0]; exact hh.2.1))]
      · have hmem : (k.t ∈ t0 :: rest) ↔ (k.t ∈ rest) := by
          simp [List.mem_cons, h0]
        by_cases hc : c t0 = true
        · rw [if_pos hc, tableGet_tableAdd,
              if_neg (by intro hh; exact h0 (by rw [hh]))]
          by_cases hr : k.t ∈ rest ∧ c k.t = true ∧ κ k.t = k.e
          · rw [if_pos hr, if_pos ⟨hmem.mpr hr.1, hr.2⟩]
          · rw [if_neg hr, if_neg (by intro hh; exact hr ⟨hmem.mp hh.1, hh.2⟩)]
        · rw [if_neg hc]
          by_cases hr : k.t ∈ rest ∧ c k.t = true ∧ κ k.t = k.e
          · rw [if_pos hr, if_pos ⟨hmem.mpr hr.1, hr.2⟩]
          · rw [if_neg hr, if_neg (by intro hh; exact hr ⟨hmem.mp hh.1, hh.2⟩)]

/-- Key distinctness is preserved by the table-building loops. -/
theorem nodup_keys_foldl_add (step : UsageTable → Nat → UsageTable)
    (c : Nat → Bool) (κ : Nat → Edge) (val : ℚ)
    (hstep : ∀ tb t, step tb t = if c t then tableAdd tb ⟨κ t, t⟩ val else tb) :
    ∀ (ts : List Nat) (tbl : UsageTable), (tbl.map Prod.fst).Nodup →
      ((ts.foldl step tbl).map Prod.fst).Nodup := by
  intro ts
  induction ts with
  | nil =>
      intro tbl h
      simpa using h
  | cons t0 rest ih =>
      intro tbl h
      rw [List.foldl_cons]
      refine ih _ ?_
      rw [hstep]
      by_cases hc : c t0 = true
      · rw [if_pos hc]
        exact nodup_keys_tableAdd _ _ _ h
      · rw [if_neg hc]
        exact h

/-- Folding a product of two independent step functions is the product of the
two folds. -/
theorem foldl_pair_split {α β ι : Type} (f : α → ι → α) (g : β → ι → β)
    (step : α × β → ι → α × β) (hstep : ∀ p i, step p i = (f p.1 i, g p.2 i)) :
    ∀ (l : List ι) (p : α × β), l.foldl step p = (l.foldl f p.1, l.foldl g p.2) := by
  intro l
  induction l with
  | nil =>
      intro p
      simp
  | cons i0 rest ih =>
      intro p
      rw [List.foldl_cons, List.foldl_cons, List.foldl_cons, ih, hstep]

/-- The contribution of one path variable to the move usage of undirected
edge e at time t: its value when the variable is tolerance-positive and its
path makes a non-wait step with undirected key e at time t, zero otherwise. -/
def move_contrib (s : SCIPTol) (m : Map) (v : PathVar) (e : Edge) (t : Nat) : ℚ :=
  if SCIPisPositive s v.val = true ∧ t < v.path.length - 1 ∧
      (pget v.path t).d ≠ Direction.WAIT ∧ m.get_undirected_edge (pget v.path t) = e then
    v.val
  else 0

/-- The accumulated move usage of undirected edge e at time t over a set of
path variables. -/
def move_usage_sum (s : SCIPTol) (m : Map) (vars : List PathVar) (e : Edge) (t : Nat) : ℚ :=
  (vars.map (fun v => move_contrib s m v e t)).sum

theorem tableGet_check_var_step (s : SCIPTol) (m : Map) (tbl : UsageTable) (var : PathVar)
    (k : EdgeTime) :
    tableGet (check_var_step s m tbl var) k = tableGet tbl k + move_contrib s m var k.e k.t := by
  by_cases hpos : SCIPisPositive s var.val = true
  · simp only [check_var_step, if_pos hpos]
    have hstep : ∀ tb t, move_step m var.val var.path tb t =
        if decide ((pget var.path t).d ≠ Direction.WAIT) then
          tableAdd tb ⟨m.get_undirected_edge (pget var.path t), t⟩ var.val
        else tb := by
      intro tb t
      by_cases h : (pget var.path t).d = Direction.WAIT <;> simp [move_step, h]
    rw [tableGet_foldl_add _ _ _ _ hstep _ (List.nodup_range _) tbl k]
    congr 1
    simp only [move_contrib]
    refine if_congr ?_ rfl rfl
    simp only [List.mem_range, decide_eq_true_eq]
    tauto
  · simp only [check_var_step, if_neg hpos, move_contrib]
    rw [if_neg (by tauto)]
    ring

theorem nodup_keys_check_var_step (s : SCIPTol) (m : Map) (tbl : UsageTable) (var : PathVar)
    (h : (tbl.map Prod.fst).Nodup) : ((check_var_step s m tbl var).map Prod.fst).Nodup := by
  by_cases hpos : SCIPisPositive s var.val = true
  · simp only [check_var_step, if_pos hpos]
    have hstep : ∀ tb t, move_step m var.val var.path tb t =
        if decide ((pget var.path t).d ≠ Direction.WAIT) then
          tableAdd tb ⟨m.get_undirected_edge (pget var.path t), t⟩ var.val
        else tb := by
      intro tb t
      by_cases hh : (pget var.path t).d = Direction.WAIT <;> simp [move_step, hh]
    exact nodup_keys_foldl_add _ _ _ _ hstep _ tbl h
  · simpa only [check_var_step, if_neg hpos] using h

theorem tableGet_foldl_check_var (s : SCIPTol) (m : Map) (vars : List PathVar) :
    ∀ (tbl : UsageTable) (k : EdgeTime),
      tableGet (vars.foldl (check_var_step s m) tbl) k =
        tableGet tbl k + move_usage_sum s m vars k.e k.t := by
  induction vars with
  | nil =>
      intro tbl k
      simp [move_usage_sum]
  | cons v rest ih =>
      intro tbl k
      rw [List.foldl_cons, ih, tableGet_check_var_step]
      simp only [move_usage_sum, List.map_cons, List.sum_cons]
      ring

/-- The checker's table holds, at every key, exactly the accumulated move
usage of that undirected edge at that time. -/
theorem tableGet_check_build (s : SCIPTol) (m : Map) (vars : List PathVar) (k : EdgeTime) :
    tableGet (check_build s m vars) k = move_usage_sum s m vars k.e k.t := by
  have h := tableGet_foldl_check_var s m vars [] k
  simpa [check_build, tableGet] using h

theorem nodup_keys_check_build (s : SCIPTol) (m : Map) (vars : List PathVar) :
    ((check_build s m vars).map Prod.fst).Nodup := by
  rw [check_build]
  have : ∀ tbl : UsageTable, (tbl.map Prod.fst).Nodup →
      ((vars.foldl (check_var_step s m) tbl).map Prod.fst).Nodup := by
    induction vars with
    | nil => intro tbl h; simpa using h
    | cons v rest ih =>
        intro tbl h
        rw [List.foldl_cons]
        exact ih _ (nodup_keys_check_var_step s m tbl v h)
  exact this [] (by simp)

/-- One iteration of the wait-table part of the separator's first loop
(source lines 340-348). -/
def wait_expl_step (val : ℚ) (path : List Edge) (wt : UsageTable) (t : Nat) : UsageTable :=
  if (pget path t).d ≠ Direction.WAIT then wt else tableAdd wt ⟨pget path t, t⟩ val

/-- The wait-table effect of one variable of the separator's loops. -/
def wait_var_step (s : SCIPTol) (makespan : Nat) (wt : UsageTable) (var : PathVar) : UsageTable :=
  if SCIPisPositive s var.val then
    (rangeFromTo (var.path.length - 1) (makespan - 1)).foldl
      (wait_tail_step var.val (pget var.path (var.path.length - 1)).n)
      ((List.range (var.path.length - 1)).foldl (wait_expl_step var.val var.path) wt)
  else wt

/-- The separator's wait_edges_used table in isolation. -/
def wait_build (s : SCIPTol) (vars : List PathVar) : UsageTable :=
  vars.foldl (wait_var_step s (computeMakespan s vars)) []

theorem sep_pair_step_eq (m : Map) (val : ℚ) (path : List Edge) :
    ∀ (tb : UsageTable × UsageTable) (t : Nat),
      sep_pair_step m val path tb t =
        (move_step m val path tb.1 t, wait_expl_step val path tb.2 t) := by
  intro tb t
  by_cases h : (pget path t).d = Direction.WAIT <;>
    simp [sep_pair_step, move_step, wait_expl_step, h]

theorem sep_var_step_eq (s : SCIPTol) (m : Map) (ms : Nat) :
    ∀ (tb : UsageTable × UsageTable) (var : PathVar),
      sep_var_step s m ms tb var =
        (check_var_step s m tb.1 var, wait_var_step s ms tb.2 var) := by
  intro tb var
  by_cases hpos : SCIPisPositive s var.val = true
  · simp only [sep_var_step, check_var_step, wait_var_step, if_pos hpos]
    rw [foldl_pair_split (move_step m var.val var.path) (wait_expl_step var.val var.path)
        _ (sep_pair_step_eq m var.val var.path)]
  · simp only [sep_var_step, check_var_step, wait_var_step, if_neg hpos]

/-- The separator's pair of tables is exactly the checker-style move table
next to the wait table. -/
theorem sep_tables_eq (s : SCIPTol) (m : Map) (vars : List PathVar) :
    sep_tables s m vars = (check_build s m vars, wait_build s vars) := by
  rw [sep_tables, check_build, wait_build,
      foldl_pair_split (check_var_step s m) (wait_var_step s (computeMakespan s vars))
        _ (sep_var_step_eq s m (computeMakespan s vars))]

theorem mem_rangeFromTo (a b t : Nat) : t ∈ rangeFromTo a b ↔ a ≤ t ∧ t < b := by
  simp only [rangeFromTo, List.mem_map, List.mem_range]
  constructor
  · rintro ⟨i, hi, rfl⟩
    omega
  · rintro ⟨h1, h2⟩
    exact ⟨t - a, by omega, by omega⟩

theorem nodup_rangeFromTo (a b : Nat) : (rangeFromTo a b).Nodup := by
  refine (List.nodup_range _).map ?_
  intro x y h
  exact Nat.add_left_cancel h

/-- The contribution of one path variable to the wait usage of edge e at time
t: an explicit wait step at e before the end of the path, plus the synthetic
wait tail at the final node from the path's last step while t < makespan - 1. -/
def wait_contrib (s : SCIPTol) (makespan : Nat) (v : PathVar) (e : Edge) (t : Nat) : ℚ :=
  (if SCIPisPositive s v.val = true ∧ t < v.path.length - 1 ∧
      (pget v.path t).d = Direction.WAIT ∧ pget v.path t = e then v.val else 0)
  + (if SCIPisPositive s v.val = true ∧ v.path.length - 1 ≤ t ∧ t < makespan - 1 ∧
      e = ⟨(pget v.path (v.path.length - 1)).n, Direction.WAIT⟩ then v.val else 0)

/-- The accumulated wait usage of edge e at time t over a set of variables. -/
def wait_usage_sum (s : SCIPTol) (makespan : Nat) (vars : List PathVar) (e : Edge)
    (t : Nat) : ℚ :=
  (vars.map (fun v => wait_contrib s makespan v e t)).sum

theorem tableGet_wait_var_step (s : SCIPTol) (ms : Nat) (wt : UsageTable) (var : PathVar)
    (k : EdgeTime) :
    tableGet (wait_var_step s ms wt var) k = tableGet wt k + wait_contrib s ms var k.e k.t := by
  by_cases hpos : SCIPisPositive s var.val = true
  · simp only [wait_var_step, if_pos hpos]
    have hstep1 : ∀ tb t, wait_expl_step var.val var.path tb t =
        if decide ((pget var.path t).d = Direction.WAIT) then
          tableAdd tb ⟨pget var.path t, t⟩ var.val
        else tb := by
      intro tb t
      by_cases h : (pget var.path t).d = Direction.WAIT <;> simp [wait_expl_step, h]
    have hstep2 : ∀ tb t, wait_tail_step var.val (pget var.path (var.path.length - 1)).n tb t =
        if (fun (_ : Nat) => true) t then
          tableAdd tb ⟨⟨(pget var.path (var.path.length - 1)).n, Direction.WAIT⟩, t⟩ var.val
        else tb := by
      intro tb t
      simp [wait_tail_step]
    rw [tableGet_foldl_add _ _ _ _ hstep2 _ (nodup_rangeFromTo _ _) _ k,
        tableGet_foldl_add _ _ _ _ hstep1 _ (List.nodup_range _) wt k]
    simp only [wait_contrib]
    rw [add_assoc]
    congr 1
    congr 1
    · refine if_congr ?_ rfl rfl
      simp only [List.mem_range, decide_eq_true_eq]
      constructor
      · rintro ⟨h1, h2, h3⟩
        refine ⟨hpos, h1, h2, ?_⟩
        cases k
        simp_all
      · rintro ⟨_, h1, h2, h3⟩
        refine ⟨h1, h2, ?_⟩
        cases k
        simp_all
    · refine if_congr ?_ rfl rfl
      rw [mem_rangeFromTo]
      constructor
      · rintro ⟨⟨h1, h2⟩, _, h3⟩
        exact ⟨hpos, h1, h2, by cases k; simp_all⟩
      · rintro ⟨_, h1, h2, h3⟩
        exact ⟨⟨h1, h2⟩, by trivial, by cases k; simp_all⟩
  · simp only [wait_var_step, if_neg hpos, wait_contrib]
    rw [if_neg (by tauto), if_neg (by tauto)]
    ring

theorem tableGet_wait_build (s : SCIPTol) (vars : List PathVar) (k : EdgeTime) :
    tableGet (wait_build s vars) k =
      wait_usage_sum s (computeMakespan s vars) vars k.e k.t := by
  rw [wait_build]
  have : ∀ (l : List PathVar) (wt : UsageTable),
      tableGet (l.foldl (wait_var_step s (computeMakespan s vars)) wt) k =
        tableGet wt k + wait_usage_sum s (computeMakespan s vars) l k.e k.t := by
    intro l
    induction l with
    | nil =>
        intro wt
        simp [wait_usage_sum]
    | cons v rest ih =>
        intro wt
        rw [List.foldl_cons, ih, tableGet_wait_var_step]
        simp only [wait_usage_sum, List.map_cons, List.sum_cons]
        ring
  have h := this vars []
  simpa [tableGet] using h

/-- The (up to) three edges of a conflict cut: the two directions of the
undirected edge and the chosen wait edge (Array<Edge, 3> in the source). -/
structure Edges3 where
  e0 : Edge
  e1 : Edge
  e2 : Edge
deriving DecidableEq

/-- An LP row owned by the external solver: whether the left-hand side is
unbounded (-infinity), the right-hand side, and the coefficient entries added
so far in order. -/
structure Row where
  lhs_inf : Bool
  rhs : ℚ
  entries : List (PathVar × ℚ)
deriving DecidableEq

/-- A stored conflict cut: the row handle, the edges and the time
(struct EdgeConflict of the source). -/
structure ConflictCut where
  row : Row
  edges : Edges3
  t : Nat
deriving DecidableEq

/-- The membership test of cut creation (source lines 148-149): the path
occupies one of the three edges at time t, or t is at or past the path's last
step and the final node matches the wait edge's node. -/
def create_cut_coef_pred (path : List Edge) (t : Nat) (edges : Edges3) : Bool :=
  (decide (t < path.length - 1) &&
     (decide (pget path t = edges.e0) || decide (pget path t = edges.e1) ||
      decide (pget path t = edges.e2)))
  || (decide (path.length - 1 ≤ t) && decide ((pget path (path.length - 1)).n = edges.e2.n))

/-- The membership test of cut extension (source lines 858-859): the path
occupies one of the three edges at time t, or t is at or past the path's last
step and the final node matches the wait edge's node. -/
def add_var_coef_pred (path : List Edge) (t : Nat) (edges : Edges3) : Bool :=
  (decide (t < path.length - 1) &&
     (decide (pget path t = edges.e0) || decide (pget path t = edges.e1) ||
      decide (pget path t = edges.e2)))
  || (decide (path.length - 1 ≤ t) && decide ((pget path (path.length - 1)).n = edges.e2.n))

/-- The row built by edge_conflicts_create_cut (source lines 116-167):
left-hand side -infinity, right-hand side 1, and coefficient 1 for every
variable passing the membership test. -/
def create_cut_row (t : Nat) (edges : Edges3) (vars : List PathVar) : Row where
  lhs_inf := true
  rhs := 1
  entries := (vars.filter (fun var => create_cut_coef_pred var.path t edges)).map
    (fun var => (var, (1 : ℚ)))

/-- Cut creation, edge_conflicts_create_cut (source lines 93-191): build the
row, add it to the LP (the infeasible flag is the externally reported outcome
of SCIPaddRow), set the result to CUTOFF or SEPARATED accordingly, and append
the cut to the store unconditionally. -/
def edge_conflicts_create_cut (t : Nat) (edges : Edges3) (vars : List PathVar)
    (infeasible : Bool) (consdata : List ConflictCut) : List ConflictCut × SCIPResult :=
  let row := create_cut_row t edges vars
  let result := if infeasible then SCIPResult.CUTOFF else SCIPResult.SEPARATED
  (consdata ++ [{ row := row, edges := edges, t := t }], result)

/-- The wait-edge selection of the separator (source lines 394-404): the
endpoint whose accumulated wait weight is larger, via a raw >= comparison that
keeps the first endpoint on ties. -/
def choose_wait_edge (n0 n1 : Nat) (wait0_val wait1_val : ℚ) : Edge × ℚ :=
  if wait0_val ≥ wait1_val then (⟨n0, Direction.WAIT⟩, wait0_val)
  else (⟨n1, Direction.WAIT⟩, wait1_val)

/-- Modelled from the spec: a tolerance-aware variant of the wait-edge
selection following the spec's words (pick the endpoint whose weight is
higher under the tolerance comparison, first endpoint otherwise), stated for
comparison with the code's raw selection. -/
def choose_wait_edge_tol (s : SCIPTol) (n0 n1 : Nat) (wait0_val wait1_val : ℚ) : Edge × ℚ :=
  if SCIPisGT s wait1_val wait0_val then (⟨n1, Direction.WAIT⟩, wait1_val)
  else (⟨n0, Direction.WAIT⟩, wait0_val)

/-- The wait lookup and selection for one move-table entry (source lines
378-405): read the wait usage of the two endpoint nodes at this time and
choose the wait edge. -/
def sep_wait_choice (m : Map) (wt : UsageTable) (kv : EdgeTime × ℚ) : Edge × ℚ :=
  let e1 := m.get_opposite_edge kv.1.e
  let wait0_val := tableGet wt ⟨⟨kv.1.e.n, Direction.WAIT⟩, kv.1.t⟩
  let wait1_val := tableGet wt ⟨⟨e1.n, Direction.WAIT⟩, kv.1.t⟩
  choose_wait_edge kv.1.e.n e1.n wait0_val wait1_val

/-- The three edges of the prospective cut for one move-table entry (source
lines 370-404). -/
def sep_entry_edges (m : Map) (wt : UsageTable) (kv : EdgeTime × ℚ) : Edges3 :=
  ⟨kv.1.e, m.get_opposite_edge kv.1.e, (sep_wait_choice m wt kv).1⟩

/-- The left-hand side tested for violation: move value plus chosen wait
value (source line 411). -/
def sep_entry_lhs (m : Map) (wt : UsageTable) (kv : EdgeTime × ℚ) : ℚ :=
  kv.2 + (sep_wait_choice m wt kv).2

/-- The separator's violation test for one move-table entry (source line
412): the left-hand side exceeds 1 under the tolerance comparison. -/
def sep_viol (s : SCIPTol) (m : Map) (wt : UsageTable) (kv : EdgeTime × ℚ) : Bool :=
  SCIPisGT s (sep_entry_lhs m wt kv) 1

/-- The conflict cut created for one violated move-table entry. -/
def sep_cut_of (m : Map) (wt : UsageTable) (vars : List PathVar)
    (kv : EdgeTime × ℚ) : ConflictCut where
  row := create_cut_row kv.1.t (sep_entry_edges m wt kv) vars
  edges := sep_entry_edges m wt kv
  t := kv.1.t

/-- One iteration of the separator's cut loop (source lines 363-435), carrying
the cut store, the result and the count of rows added so far in this call (the
infeasibility oracle is indexed by that count, standing for the external LP
state when the row is added). -/
def sep_cut_step (s : SCIPTol) (m : Map) (wt : UsageTable) (vars : List PathVar)
    (oracle : Nat → Bool) (st : List ConflictCut × SCIPResult × Nat)
    (kv : EdgeTime × ℚ) : List ConflictCut × SCIPResult × Nat :=
  if sep_viol s m wt kv then
    let r := edge_conflicts_create_cut kv.1.t (sep_entry_edges m wt kv) vars
      (oracle st.2.2) st.1
    (r.1, r.2, st.2.2 + 1)
  else st

/-- The Conflict Separator, edge_conflicts_separate (source lines 264-439):
build the usage tables, then walk the move table and create one cut per
violated entry, threading the result. -/
def edge_conflicts_separate (s : SCIPTol) (m : Map) (vars : List PathVar)
    (oracle : Nat → Bool) (consdata : List ConflictCut) (result : SCIPResult) :
    List ConflictCut × SCIPResult :=
  let tables := sep_tables s m vars
  let st := tables.1.foldl (sep_cut_step s m tables.2 vars oracle) (consdata, result, 0)
  (st.1, st.2.1)

/-- Cut extension, edge_conflicts_add_var (source lines 832-870): every stored
cut whose membership test accepts the new variable's path gets the variable
appended to its row with coefficient 1; other cuts are untouched. -/
def edge_conflicts_add_var (var : PathVar) (conflicts : List ConflictCut) : List ConflictCut :=
  conflicts.map (fun c =>
    if add_var_coef_pred var.path c.t c.edges then
      { c with row := { c.row with entries := c.row.entries ++ [(var, (1 : ℚ))] } }
    else c)

/-- The transformation hook, consTransEdgeConflicts (source lines 524-571):
copy the source constraint data, then abort (modelled as none) unless the
source cut storage is empty. -/
def consTransEdgeConflicts (sourcedata : List ConflictCut) : Option (List ConflictCut) :=
  let targetdata := sourcedata
  if sourcedata.isEmpty then some targetdata else none

/-- The number of violated move-table entries of a separation call. -/
def sep_num_violated (s : SCIPTol) (m : Map) (vars : List PathVar) : Nat :=
  (sep_tables s m vars).1.countP (sep_viol s m (sep_tables s m vars).2)

/-- Characterization of the separator's cut loop: the cuts appended are one
per violated entry in table order, the count of added rows advances by the
number of violated entries, and the final result is the result of the last
cut creation (or the incoming result when none was created). -/
theorem sep_fold_spec (s : SCIPTol) (m : Map) (wt : UsageTable) (vars : List PathVar)
    (oracle : Nat → Bool) :
    ∀ (l : List (EdgeTime × ℚ)) (cd : List ConflictCut) (r : SCIPResult) (k : Nat),
      l.foldl (sep_cut_step s m wt vars oracle) (cd, r, k) =
        (cd ++ (l.filter (sep_viol s m wt)).map (sep_cut_of m wt vars),
         if l.countP (sep_viol s m wt) = 0 then r
         else if oracle (k + l.countP (sep_viol s m wt) - 1) then SCIPResult.CUTOFF
         else SCIPResult.SEPARATED,
         k + l.countP (sep_viol s m wt)) := by
  intro l
  induction l with
  | nil =>
      intro cd r k
      simp
  | cons kv rest ih =>
      intro cd r k
      rw [List.foldl_cons]
      by_cases hv : sep_viol s m wt kv = true
      · have hstep : sep_cut_step s m wt vars oracle (cd, r, k) kv =
            (cd ++ [sep_cut_of m wt vars kv],
             if oracle k then SCIPResult.CUTOFF else SCIPResult.SEPARATED, k + 1) := by
          simp [sep_cut_step, hv, edge_conflicts_create_cut, sep_cut_of]
        rw [hstep, ih]
        simp only [List.filter_cons, hv, if_true, List.countP_cons, List.map_cons,
          Prod.mk.injEq]
        refine ⟨?_, ?_, ?_⟩
        · simp [List.append_assoc]
        · by_cases hc : rest.countP (sep_viol s m wt) = 0
          · simp [hc]
          · have h1 : k + 1 + rest.countP (sep_viol s m wt) - 1 =
                k + rest.countP (sep_viol s m wt) := by omega
            have h2 : k + (rest.countP (sep_viol s m wt) + 1) - 1 =
                k + rest.countP (sep_viol s m wt) := by omega
            simp [hc, h1, h2]
        · omega
      · have hstep : sep_cut_step s m wt vars oracle (cd, r, k) kv = (cd, r, k) := by
          simp [sep_cut_step, hv]
        rw [hstep, ih]
        have hc : (kv :: rest).countP (sep_viol s m wt) = rest.countP (sep_viol s m wt) := by
          simp [List.countP_cons, hv]
        have hf : (kv :: rest).filter (sep_viol s m wt) = rest.filter (sep_viol s m wt) := by
          simp [List.filter_cons, hv]
        rw [hc, hf]

/-- The separator in closed form: cuts are the incoming store plus one cut per
violated move-table entry, and the result is decided by the last row added. -/
theorem edge_conflicts_separate_eq (s : SCIPTol) (m : Map) (vars : List PathVar)
    (oracle : Nat → Bool) (cd : List ConflictCut) (r : SCIPResult) :
    edge_conflicts_separate s m vars oracle cd r =
      (cd ++ (((sep_tables s m vars).1.filter (sep_viol s m (sep_tables s m vars).2)).map
        (sep_cut_of m (sep_tables s m vars).2 vars)),
       if sep_num_violated s m vars = 0 then r
       else if oracle (sep_num_violated s m vars - 1) then SCIPResult.CUTOFF
       else SCIPResult.SEPARATED) := by
  rw [edge_conflicts_separate, sep_fold_spec, sep_num_violated]
  simp

/-- Counting entries of a duplicate-free table that have a given key and pass
a test: one when the key is present and its entry passes, zero otherwise. -/
theorem countP_key_nodup (P : EdgeTime × ℚ → Bool) (et : EdgeTime) :
    ∀ (tbl : UsageTable), (tbl.map Prod.fst).Nodup →
      tbl.countP (fun kv => decide (kv.1 = et) && P kv) =
        if et ∈ tbl.map Prod.fst ∧ P (et, tableGet tbl et) = true then 1 else 0 := by
  intro tbl
  induction tbl with
  | nil =>
      intro _
      simp
  | cons hd rest ih =>
      intro h
      obtain ⟨a, w⟩ := hd
      have h' : a ∉ rest.map Prod.fst ∧ (rest.map Prod.fst).Nodup := by
        simp only [List.map_cons] at h
        exact List.nodup_cons.mp h
      rw [List.countP_cons]
      by_cases ha : a = et
      · subst ha
        have hrest0 : rest.countP (fun kv => decide (kv.1 = a) && P kv) = 0 := by
          rw [List.countP_eq_zero]
          intro kv hkv
          simp only [Bool.and_eq_true, decide_eq_true_eq, not_and]
          intro hk
          exact absurd (hk ▸ List.mem_map_of_mem Prod.fst hkv) h'.1
        rw [hrest0]
        by_cases hP : P (a, w) = true <;> simp [hP, tableGet]
      · have hne : ¬ et = a := fun hh => ha hh.symm
        rw [ih h'.2]
        by_cases hP : P (et, tableGet rest et) = true <;>
          by_cases hm : et ∈ rest.map Prod.fst <;>
            simp [tableGet, ha, hne, hP, hm]

/-- The coefficient a row records for a variable: the sum of the entries
added for it. -/
def entriesCoef (l : List (PathVar × ℚ)) (v : PathVar) : ℚ :=
  ((l.filter (fun p => decide (p.1 = v))).map Prod.snd).sum

def coefOf (row : Row) (v : PathVar) : ℚ :=
  entriesCoef row.entries v

/-- The value of a row's left-hand side under an assignment of weights. -/
def rowActivity (row : Row) (w : PathVar → ℚ) : ℚ :=
  (row.entries.map (fun p => p.2 * w p.1)).sum

theorem entriesCoef_cons (a : PathVar) (q : ℚ) (l : List (PathVar × ℚ)) (v : PathVar) :
    entriesCoef ((a, q) :: l) v = (if a = v then q else 0) + entriesCoef l v := by
  by_cases h : a = v <;> simp [entriesCoef, h]

theorem entriesCoef_append (l1 l2 : List (PathVar × ℚ)) (v : PathVar) :
    entriesCoef (l1 ++ l2) v = entriesCoef l1 v + entriesCoef l2 v := by
  simp [entriesCoef, List.filter_append]

theorem entriesCoef_filter_map (P : PathVar → Bool) :
    ∀ (vars : List PathVar) (v : PathVar), vars.Nodup →
      entriesCoef ((vars.filter P).map (fun u => (u, (1 : ℚ)))) v =
        if v ∈ vars ∧ P v = true then 1 else 0 := by
  intro vars
  induction vars with
  | nil =>
      intro v _
      simp [entriesCoef]
  | cons u rest ih =>
      intro v hnd
      have h' := List.nodup_cons.mp hnd
      by_cases hP : P u = true
      · rw [List.filter_cons_of_pos hP, List.map_cons, entriesCoef_cons, ih v h'.2]
        by_cases huv : u = v
        · subst huv
          rw [if_pos rfl, if_neg (fun hh => h'.1 hh.1), if_pos ⟨List.mem_cons_self u rest, hP⟩]
          ring
        · have hvu : ¬ v = u := fun hh => huv hh.symm
          rw [if_neg huv]
          by_cases hmem : v ∈ rest ∧ P v = true
          · rw [if_pos hmem, if_pos ⟨List.mem_cons_of_mem u hmem.1, hmem.2⟩]
            ring
          · rw [if_neg hmem, if_neg ?_]
            · ring
            · rintro ⟨hm, hp⟩
              rcases List.mem_cons.mp hm with hh | hh
              · exact hvu hh
              · exact hmem ⟨hh, hp⟩
      · rw [List.filter_cons_of_neg (by simpa using hP), ih v h'.2]
        by_cases huv : u = v
        · subst huv
          rw [if_neg (fun hh => h'.1 hh.1), if_neg (fun hh => hP hh.2)]
        · have hvu : ¬ v = u := fun hh => huv hh.symm
          refine if_congr ?_ rfl rfl
          simp [List.mem_cons, hvu]

theorem entriesCoef_filter_map_not_mem (P : PathVar → Bool) :
    ∀ (vars : List PathVar) (v : PathVar), v ∉ vars →
      entriesCoef ((vars.filter P).map (fun u => (u, (1 : ℚ)))) v = 0 := by
  intro vars
  induction vars with
  | nil =>
      intro v _
      simp [entriesCoef]
  | cons u rest ih =>
      intro v hv
      have hvu : v ≠ u := fun hh => hv (hh ▸ List.mem_cons_self u rest)
      have hvr : v ∉ rest := fun hh => hv (List.mem_cons_of_mem u hh)
      by_cases hP : P u = true
      · rw [List.filter_cons_of_pos hP, List.map_cons, entriesCoef_cons,
            if_neg (fun hh => hvu hh.symm), ih v hvr]
        ring
      · rw [List.filter_cons_of_neg (by simpa using hP)]
        exact ih v hvr

theorem sum_single_assignment (w : PathVar → ℚ) (v0 : PathVar) (hw1 : w v0 = 1)
    (hw0 : ∀ u, u ≠ v0 → w u = 0) :
    ∀ (l : List PathVar), l.Nodup → (l.map w).sum = if v0 ∈ l then 1 else 0 := by
  intro l
  induction l with
  | nil =>
      intro _
      simp
  | cons a rest ih =>
      intro hnd
      have h' := List.nodup_cons.mp hnd
      rw [List.map_cons, List.sum_cons, ih h'.2]
      by_cases ha : a = v0
      · subst ha
        rw [hw1, if_neg h'.1, if_pos (List.mem_cons_self a rest)]
        ring
      · have hne : ¬ v0 = a := fun hh => ha hh.symm
        rw [hw0 a ha]
        by_cases hmem : v0 ∈ rest
        · rw [if_pos hmem, if_pos (List.mem_cons_of_mem a hmem)]
          ring
        · rw [if_neg hmem, if_neg ?_]
          · ring
          · intro hh
            rcases List.mem_cons.mp hh with hh | hh
            · exact hne hh
            · exact hmem hh

/-- Tolerance of one tenth used for the concrete instances below (small
enough for all the weights involved, kept coarse so that concrete terms
evaluate cheaply). -/
def sTol : SCIPTol := ⟨1 / 10⟩

/-- Concrete map instance: a grid of width 10. -/
def exMap : Map := gridMap 10

def varHeadOn0 : PathVar := ⟨0, [⟨0, Direction.EAST⟩, ⟨1, Direction.WAIT⟩], 3 / 5⟩

def varHeadOn1 : PathVar := ⟨1, [⟨1, Direction.WEST⟩, ⟨0, Direction.WAIT⟩], 3 / 5⟩

/-- Two agents traversing the undirected edge between nodes 0 and 1 in
opposite directions at time 0, each with weight 3/5. -/
def varsHeadOn : List PathVar := [varHeadOn0, varHeadOn1]

def varFar0 : PathVar := ⟨2, [⟨20, Direction.EAST⟩, ⟨21, Direction.WAIT⟩], 3 / 5⟩

def varFar1 : PathVar := ⟨3, [⟨21, Direction.WEST⟩, ⟨20, Direction.WAIT⟩], 3 / 5⟩

/-- Two separate head-on conflicts: one between nodes 0 and 1 and one between
nodes 20 and 21, all at time 0. -/
def varsTwo : List PathVar := [varHeadOn0, varHeadOn1, varFar0, varFar1]

def varWait0 : PathVar := ⟨0, [⟨0, Direction.WAIT⟩, ⟨0, Direction.WAIT⟩], 3 / 5⟩

def varWait1 : PathVar := ⟨1, [⟨0, Direction.WAIT⟩, ⟨0, Direction.WAIT⟩], 3 / 5⟩

/-- Two agents waiting at node 0 at time 0 with weight 3/5 each: an
accumulated wait usage of 6/5 with no move usage anywhere. -/
def varsWaitOnly : List PathVar := [varWait0, varWait1]

def varStay5 : PathVar := ⟨0, [⟨5, Direction.WAIT⟩], 1⟩

def varLong : PathVar := ⟨1, [⟨0, Direction.EAST⟩, ⟨1, Direction.EAST⟩, ⟨2, Direction.WAIT⟩], 1⟩

/-- An agent already at its destination (path of length 1 at node 5) next to
an agent with a path of length 3, so the makespan is 3. -/
def varsTail : List PathVar := [varStay5, varLong]

def exEdges : Edges3 := ⟨⟨0, Direction.EAST⟩, ⟨1, Direction.WEST⟩, ⟨0, Direction.WAIT⟩⟩

def exCut : ConflictCut := { row := create_cut_row 0 exEdges varsHeadOn, edges := exEdges, t := 0 }

/-- The checker reports INFEASIBLE exactly when some undirected edge-time has
accumulated move usage over 1 under the tolerance comparison. -/
theorem check_infeasible_iff (s : SCIPTol) (m : Map) (vars : List PathVar) (heps : 0 ≤ s.eps) :
    edge_conflicts_check s m vars = SCIPResult.INFEASIBLE ↔
      ∃ (e : Edge) (t : Nat), SCIPisGT s (move_usage_sum s m vars e t) 1 = true := by
  have hkey : ∀ k : EdgeTime, tableGet (check_build s m vars) k =
      move_usage_sum s m vars k.e k.t := tableGet_check_build s m vars
  rw [edge_conflicts_check]
  by_cases hany : (check_build s m vars).any (fun kv => SCIPisGT s kv.2 1) = true
  · rw [if_pos hany]
    rcases List.any_eq_true.mp hany with ⟨kv, hkv, hgt⟩
    have hget : tableGet (check_build s m vars) kv.1 = kv.2 := by
      have hmem : (kv.1, kv.2) ∈ check_build s m vars := by simpa using hkv
      exact tableGet_of_mem_nodup (nodup_keys_check_build s m vars) hmem
    constructor
    · intro _
      refine ⟨kv.1.e, kv.1.t, ?_⟩
      rw [← hkey kv.1, hget]
      exact hgt
    · intro _
      rfl
  · rw [if_neg hany]
    constructor
    · intro h
      exact SCIPResult.noConfusion h
    · rintro ⟨e, t, hgt⟩
      exfalso
      apply hany
      have hgt' : SCIPisGT s (tableGet (check_build s m vars) ⟨e, t⟩) 1 = true := by
        rw [hkey ⟨e, t⟩]
        exact hgt
      rcases table_mem_get_or_zero (check_build s m vars) ⟨e, t⟩ with hmem | hzero
      · exact List.any_eq_true.mpr ⟨_, hmem, hgt'⟩
      · rw [hzero] at hgt'
        simp only [SCIPisGT, decide_eq_true_eq] at hgt'
        linarith

/-- C1: for every assignment, edge_conflicts_check reports INFEASIBLE if and
only if some undirected edge and time t have, over the tolerance-positive
variables whose path makes a non-wait step mapping to that undirected key at
time t (with 0 ≤ t < pathLength - 1), an accumulated weight exceeding 1 under
the tolerance comparison; wait steps and non-positive variables contribute
nothing to the sum. -/
theorem claim_C1 (s : SCIPTol) (m : Map) (vars : List PathVar) (heps : 0 ≤ s.eps) :
    edge_conflicts_check s m vars = SCIPResult.INFEASIBLE ↔
      ∃ (e : Edge) (t : Nat), SCIPisGT s (move_usage_sum s m vars e t) 1 = true :=
  check_infeasible_iff s m vars heps

/-- Witness for C1: the checker is INFEASIBLE on the concrete head-on
conflict. -/
theorem claim_C1_witness :
    edge_conflicts_check sTol exMap varsHeadOn = SCIPResult.INFEASIBLE :=
  (claim_C1 sTol exMap varsHeadOn (by with_unfolding_all decide)).mpr
    ⟨⟨0, Direction.EAST⟩, 0, by with_unfolding_all decide⟩

/-- C4: the membership predicate of edge_conflicts_add_var equals the
membership predicate of edge_conflicts_create_cut as a function of the path,
its length, the cut's edges and its time; the extension appends the new
variable with coefficient 1 to exactly the rows of the cuts accepted by that
predicate and leaves every other cut unchanged. -/
theorem claim_C4 :
    (∀ (path : List Edge) (t : Nat) (edges : Edges3),
      add_var_coef_pred path t edges = create_cut_coef_pred path t edges)
    ∧ (∀ (var : PathVar) (conflicts : List ConflictCut),
        edge_conflicts_add_var var conflicts =
          conflicts.map (fun c =>
            if create_cut_coef_pred var.path c.t c.edges then
              { c with row := { c.row with entries := c.row.entries ++ [(var, (1 : ℚ))] } }
            else c))
    ∧ (∀ (c : ConflictCut) (var : PathVar),
        coefOf { c.row with entries := c.row.entries ++ [(var, (1 : ℚ))] } var =
          coefOf c.row var + 1) := by
  refine ⟨fun _ _ _ => rfl, fun _ _ => rfl, ?_⟩
  intro c var
  have h : coefOf { c.row with entries := c.row.entries ++ [(var, (1 : ℚ))] } var =
      entriesCoef (c.row.entries ++ [(var, (1 : ℚ))]) var := rfl
  rw [h, entriesCoef_append, coefOf]
  have h2 : entriesCoef [(var, (1 : ℚ))] var = 1 := by
    simp [entriesCoef]
  rw [h2]

/-- C7: the separator's wait-edge selection takes the endpoint with the
strictly higher accumulated wait weight and keeps the first endpoint (the
origin node of the stored undirected edge) on an exact tie; it is a pure
function of the two looked-up wait weights, and the separator applies it to
the wait usages of the two endpoint nodes of the entry's edge at its time. -/
theorem claim_C7 :
    (∀ (n0 n1 : Nat) (w0 w1 : ℚ),
      choose_wait_edge n0 n1 w0 w1 =
        if w0 < w1 then (⟨n1, Direction.WAIT⟩, w1) else (⟨n0, Direction.WAIT⟩, w0))
    ∧ (∀ (m : Map) (wt : UsageTable) (kv : EdgeTime × ℚ),
        sep_wait_choice m wt kv =
          choose_wait_edge kv.1.e.n (m.get_opposite_edge kv.1.e).n
            (tableGet wt ⟨⟨kv.1.e.n, Direction.WAIT⟩, kv.1.t⟩)
            (tableGet wt ⟨⟨(m.get_opposite_edge kv.1.e).n, Direction.WAIT⟩, kv.1.t⟩)) := by
  constructor
  · intro n0 n1 w0 w1
    rw [choose_wait_edge]
    rcases le_or_lt w1 w0 with h | h
    · rw [if_pos h, if_neg (not_lt.mpr h)]
    · rw [if_neg (not_le.mpr h), if_pos h]
  · intro m wt kv
    rfl

/-- C8: transforming a constraint whose cut storage is non-empty is a fatal
error (the release_assert aborts, modelled as none); transforming with empty
storage yields a transformed constraint with empty storage. -/
theorem claim_C8 :
    (∀ sourcedata : List ConflictCut, sourcedata ≠ [] →
      consTransEdgeConflicts sourcedata = none)
    ∧ consTransEdgeConflicts [] = some [] := by
  refine ⟨?_, rfl⟩
  intro sd h
  have hempty : sd.isEmpty = false := by
    cases sd with
    | nil => exact absurd rfl h
    | cons a l => rfl
  simp [consTransEdgeConflicts, hempty]

/-- Witness for C8: transformation aborts on a singleton cut store. -/
theorem claim_C8_witness : consTransEdgeConflicts [exCut] = none :=
  claim_C8.1 [exCut] (by decide)

/-- C10: every call to edge_conflicts_create_cut appends exactly one cut to
the store, for either value of the infeasibility outcome, so a separation
call grows the store by exactly the number of violated move-table entries. -/
theorem claim_C10 :
    (∀ (t : Nat) (edges : Edges3) (vars : List PathVar) (infeasible : Bool)
        (cd : List ConflictCut),
      (edge_conflicts_create_cut t edges vars infeasible cd).1.length = cd.length + 1)
    ∧ (∀ (s : SCIPTol) (m : Map) (vars : List PathVar) (oracle : Nat → Bool)
        (cd : List ConflictCut) (r : SCIPResult),
      (edge_conflicts_separate s m vars oracle cd r).1.length =
        cd.length + sep_num_violated s m vars) := by
  constructor
  · intro t edges vars infeasible cd
    simp [edge_conflicts_create_cut]
  · intro s m vars oracle cd r
    rw [edge_conflicts_separate_eq]
    simp [sep_num_violated, List.countP_eq_length_filter]

/-- C2 (amended): edge_conflicts_separate emits exactly one cut per
undirected-edge-time key that is recorded in the move-usage index and whose
accumulated move usage plus the selected wait usage exceeds 1 under the
tolerance comparison, and no cut for any other key (in particular none for a
key with no recorded move usage, whatever its wait usage). -/
theorem claim_C2 (s : SCIPTol) (m : Map) (vars : List PathVar) (oracle : Nat → Bool)
    (r0 : SCIPResult) (et : EdgeTime) :
    ((edge_conflicts_separate s m vars oracle [] r0).1.countP
        (fun c => decide (c.t = et.t ∧ c.edges.e0 = et.e))) =
      if et ∈ (sep_tables s m vars).1.map Prod.fst ∧
          sep_viol s m (sep_tables s m vars).2
            (et, tableGet (sep_tables s m vars).1 et) = true
      then 1 else 0 := by
  rw [edge_conflicts_separate_eq]
  simp only [List.nil_append]
  rw [List.countP_map, List.countP_filter]
  have hnd : ((sep_tables s m vars).1.map Prod.fst).Nodup := by
    rw [sep_tables_eq]
    exact nodup_keys_check_build s m vars
  have hcongr : ∀ kv ∈ (sep_tables s m vars).1,
      (((fun c => decide (c.t = et.t ∧ c.edges.e0 = et.e)) ∘
          sep_cut_of m (sep_tables s m vars).2 vars) kv
        && sep_viol s m (sep_tables s m vars).2 kv)
      = (decide (kv.1 = et) && sep_viol s m (sep_tables s m vars).2 kv) := by
    intro kv _
    obtain ⟨⟨kve, kvt⟩, kvw⟩ := kv
    have h : ((fun c => decide (c.t = et.t ∧ c.edges.e0 = et.e)) ∘
        sep_cut_of m (sep_tables s m vars).2 vars) ((⟨⟨kve, kvt⟩, kvw⟩ : EdgeTime × ℚ))
        = decide (kvt = et.t ∧ kve = et.e) := rfl
    rw [h]
    congr 1
    rw [decide_eq_decide]
    constructor
    · rintro ⟨h1, h2⟩
      subst h1
      subst h2
      rfl
    · intro h1
      cases h1
      exact ⟨rfl, rfl⟩
  have hfinal := countP_key_nodup (sep_viol s m (sep_tables s m vars).2) et _ hnd
  rw [← hfinal]
  exact List.countP_congr (fun kv hkv => by rw [hcongr kv hkv])

/-- Counterexample to C2 as stated: with two agents only waiting at node 0 at
time 0 with weight 3/5 each, the key of the undirected edge from node 0 to
node 1 at time 0 has move usage 0 and selected wait usage 6/5, so its total
exceeds 1, yet the separator emits no cut at all. -/
theorem claim_C2_counterexample :
    (edge_conflicts_separate sTol exMap varsWaitOnly (fun _ => false) []
      SCIPResult.DIDNOTFIND).1 = []
    ∧ sep_viol sTol exMap (sep_tables sTol exMap varsWaitOnly).2
        (⟨⟨0, Direction.EAST⟩, 0⟩,
          tableGet (sep_tables sTol exMap varsWaitOnly).1 ⟨⟨0, Direction.EAST⟩, 0⟩) = true
    ∧ tableGet (sep_tables sTol exMap varsWaitOnly).1 ⟨⟨0, Direction.EAST⟩, 0⟩ = 0 := by
  with_unfolding_all decide

/-- C3: every emitted ConflictCut's row has right-hand side 1 and unbounded
left-hand side; its coefficient is 1 for exactly the variables accepted by
the membership predicate (path occupies one of the cut's edges at time t when
t < pathLength - 1, or the final node matches the wait edge's node when
t ≥ pathLength - 1) and 0 for every other variable; consequently any
assignment putting weight 1 on a single variable and 0 elsewhere satisfies
the cut (activity at most 1). -/
theorem claim_C3 (t : Nat) (edges : Edges3) (vars : List PathVar) (infeasible : Bool)
    (cd : List ConflictCut) :
    (edge_conflicts_create_cut t edges vars infeasible cd).1 =
      cd ++ [{ row := create_cut_row t edges vars, edges := edges, t := t }]
    ∧ (create_cut_row t edges vars).rhs = 1
    ∧ (create_cut_row t edges vars).lhs_inf = true
    ∧ (vars.Nodup → ∀ v ∈ vars,
        coefOf (create_cut_row t edges vars) v =
          if create_cut_coef_pred v.path t edges = true then 1 else 0)
    ∧ (∀ v, v ∉ vars → coefOf (create_cut_row t edges vars) v = 0)
    ∧ (∀ (w : PathVar → ℚ) (v0 : PathVar), vars.Nodup → w v0 = 1 →
        (∀ u, u ≠ v0 → w u = 0) → rowActivity (create_cut_row t edges vars) w ≤ 1) := by
  refine ⟨rfl, rfl, rfl, ?_, ?_, ?_⟩
  · intro hnd v hv
    have hc : coefOf (create_cut_row t edges vars) v =
        entriesCoef ((vars.filter (fun var => create_cut_coef_pred var.path t edges)).map
          (fun u => (u, (1 : ℚ)))) v := rfl
    rw [hc, entriesCoef_filter_map _ vars v hnd]
    by_cases hp : create_cut_coef_pred v.path t edges = true
    · rw [if_pos ⟨hv, hp⟩, if_pos hp]
    · rw [if_neg (fun hh => hp hh.2), if_neg hp]
  · intro v hv
    have hc : coefOf (create_cut_row t edges vars) v =
        entriesCoef ((vars.filter (fun var => create_cut_coef_pred var.path t edges)).map
          (fun u => (u, (1 : ℚ)))) v := rfl
    rw [hc]
    exact entriesCoef_filter_map_not_mem _ vars v hv
  · intro w v0 hnd hw1 hw0
    have hc : rowActivity (create_cut_row t edges vars) w =
        (((vars.filter (fun var => create_cut_coef_pred var.path t edges)).map
          (fun u => (u, (1 : ℚ)))).map (fun p => p.2 * w p.1)).sum := rfl
    rw [hc, List.map_map]
    have hcomp : ((fun p : PathVar × ℚ => p.2 * w p.1) ∘ (fun u => (u, (1 : ℚ)))) =
        fun u => w u := by
      funext u
      simp
    rw [hcomp]
    rw [sum_single_assignment w v0 hw1 hw0 _ (hnd.filter _)]
    split_ifs <;> norm_num

/-- Witness for C3 on the concrete head-on conflict cut. -/
theorem claim_C3_witness :
    coefOf (create_cut_row 0 exEdges varsHeadOn) varHeadOn0 = 1 ∧
    rowActivity (create_cut_row 0 exEdges varsHeadOn)
      (fun v => if v = varHeadOn0 then 1 else 0) ≤ 1 := by
  have h := claim_C3 0 exEdges varsHeadOn false []
  constructor
  · have h4 := h.2.2.2.1 (by with_unfolding_all decide) varHeadOn0
      (by with_unfolding_all decide)
    rw [h4]
    with_unfolding_all decide
  · refine h.2.2.2.2.2 (fun v => if v = varHeadOn0 then 1 else 0) varHeadOn0
      (by with_unfolding_all decide) ?_ ?_
    · simp
    · intro u hu
      simp [hu]

/-- C5 (amended): the final result of a separation call is the result set by
the last cut creation: unchanged when no entry is violated, otherwise CUTOFF
exactly when the last added row reported the relaxation infeasible and
SEPARATED otherwise (an earlier cut's CUTOFF is overwritten by later cuts). -/
theorem claim_C5 (s : SCIPTol) (m : Map) (vars : List PathVar) (oracle : Nat → Bool)
    (cd : List ConflictCut) (r0 : SCIPResult) :
    (sep_num_violated s m vars = 0 →
      (edge_conflicts_separate s m vars oracle cd r0).2 = r0)
    ∧ (0 < sep_num_violated s m vars →
      (edge_conflicts_separate s m vars oracle cd r0).2 =
        if oracle (sep_num_violated s m vars - 1) then SCIPResult.CUTOFF
        else SCIPResult.SEPARATED) := by
  rw [edge_conflicts_separate_eq]
  constructor
  · intro h
    simp [h]
  · intro h
    have h0 : ¬ sep_num_violated s m vars = 0 := by omega
    simp [h0]

/-- Witness for C5 on the two-conflict instance: no violation leaves the
incoming result, and with two violations the result follows the last row. -/
theorem claim_C5_witness :
    (edge_conflicts_separate sTol exMap [] (fun _ => true) [] SCIPResult.DIDNOTFIND).2 =
      SCIPResult.DIDNOTFIND
    ∧ (edge_conflicts_separate sTol exMap varsTwo (fun k => decide (k = 0)) []
        SCIPResult.DIDNOTFIND).2 =
      if (fun k => decide (k = 0)) (sep_num_violated sTol exMap varsTwo - 1) then
        SCIPResult.CUTOFF
      else SCIPResult.SEPARATED := by
  constructor
  · exact (claim_C5 sTol exMap [] (fun _ => true) [] SCIPResult.DIDNOTFIND).1
      (by with_unfolding_all decide)
  · exact (claim_C5 sTol exMap varsTwo (fun k => decide (k = 0)) []
      SCIPResult.DIDNOTFIND).2 (by with_unfolding_all decide)

/-- Counterexample to C5 as stated: on the two-conflict instance the first
added row reports infeasible (the oracle is true at index 0) and two cuts are
emitted, yet the final result is SEPARATED, not CUTOFF — the second cut
creation overwrote the cutoff signal. -/
theorem claim_C5_counterexample :
    (fun k => decide (k = 0)) 0 = true
    ∧ (edge_conflicts_separate sTol exMap varsTwo (fun k => decide (k = 0)) []
        SCIPResult.DIDNOTFIND).1.length = 2
    ∧ (edge_conflicts_separate sTol exMap varsTwo (fun k => decide (k = 0)) []
        SCIPResult.DIDNOTFIND).2 = SCIPResult.SEPARATED := by
  with_unfolding_all decide

/-- C6 (amended): with wait conflicts modelled, every tolerance-positive
variable's synthetic wait tail is recorded at its final node for every time t
with pathLength - 1 ≤ t and t < makespan - 1 (not for t at or beyond
makespan - 1): at each such t the wait-usage index holds at least the
variable's weight. -/
theorem claim_C6 (s : SCIPTol) (m : Map) (vars : List PathVar) (v : PathVar) (t : Nat)
    (heps : 0 ≤ s.eps) (hv : v ∈ vars) (hpos : SCIPisPositive s v.val = true)
    (h1 : v.path.length - 1 ≤ t) (h2 : t < computeMakespan s vars - 1) :
    v.val ≤ tableGet (sep_tables s m vars).2
      ⟨⟨(pget v.path (v.path.length - 1)).n, Direction.WAIT⟩, t⟩ := by
  rw [sep_tables_eq]
  show v.val ≤ tableGet (wait_build s vars)
    ⟨⟨(pget v.path (v.path.length - 1)).n, Direction.WAIT⟩, t⟩
  rw [tableGet_wait_build s vars ⟨⟨(pget v.path (v.path.length - 1)).n, Direction.WAIT⟩, t⟩]
  have hterm : ∀ u : PathVar, 0 ≤ wait_contrib s (computeMakespan s vars) u
      ⟨(pget v.path (v.path.length - 1)).n, Direction.WAIT⟩ t := by
    intro u
    simp only [wait_contrib]
    by_cases hp : SCIPisPositive s u.val = true
    · have hu : 0 ≤ u.val := by
        have h' : s.eps < u.val := by simpa [SCIPisPositive, decide_eq_true_eq] using hp
        linarith
      split_ifs <;> linarith
    · rw [if_neg (by tauto), if_neg (by tauto)]
      norm_num
  have hvterm : v.val ≤ wait_contrib s (computeMakespan s vars) v
      ⟨(pget v.path (v.path.length - 1)).n, Direction.WAIT⟩ t := by
    simp only [wait_contrib]
    have hn1 : ¬ (SCIPisPositive s v.val = true ∧ t < v.path.length - 1 ∧
        (pget v.path t).d = Direction.WAIT ∧
        pget v.path t = ⟨(pget v.path (v.path.length - 1)).n, Direction.WAIT⟩) := by
      rintro ⟨-, hlt, -, -⟩
      omega
    rw [if_neg hn1, if_pos ⟨hpos, h1, h2, by trivial⟩]
    norm_num
  calc v.val ≤ wait_contrib s (computeMakespan s vars) v
        ⟨(pget v.path (v.path.length - 1)).n, Direction.WAIT⟩ t := hvterm
    _ ≤ wait_usage_sum s (computeMakespan s vars) vars
        ⟨(pget v.path (v.path.length - 1)).n, Direction.WAIT⟩ t := by
        refine List.single_le_sum ?_ _ (List.mem_map_of_mem _ hv)
        intro x hx
        rcases List.mem_map.mp hx with ⟨u, hu, rfl⟩
        exact hterm u

/-- Witness for C6: the finished agent's wait occupation at its destination
at time 1 (its path has length 1 and the makespan is 3). -/
theorem claim_C6_witness :
    varStay5.val ≤ tableGet (sep_tables sTol exMap varsTail).2
      ⟨⟨(pget varStay5.path (varStay5.path.length - 1)).n, Direction.WAIT⟩, 1⟩ :=
  claim_C6 sTol exMap varsTail varStay5 1 (by with_unfolding_all decide)
    (by with_unfolding_all decide) (by with_unfolding_all decide)
    (by decide) (by with_unfolding_all decide)

/-- Counterexample to C6 as stated: at t = 2, which lies between the finished
agent's last step (pathLength - 1 = 0) and the makespan 3, no synthetic wait
occupation is recorded at its final node — the tail stops at makespan - 2. -/
theorem claim_C6_counterexample :
    tableGet (sep_tables sTol exMap varsTail).2
        ⟨⟨(pget varStay5.path (varStay5.path.length - 1)).n, Direction.WAIT⟩, 2⟩ = 0
    ∧ varStay5 ∈ varsTail
    ∧ SCIPisPositive sTol varStay5.val = true
    ∧ varStay5.path.length - 1 ≤ 2
    ∧ 2 < computeMakespan sTol varsTail := by
  with_unfolding_all decide

/-- C9 (amended): the tolerance predicates decide a variable's positivity and
the usage-exceeds-1 tests of the checker and separator, but the comparison
selecting between the two candidate wait edges is a raw >= on the accumulated
weights, not a tolerance-aware predicate. -/
theorem claim_C9 (s : SCIPTol) (heps : 0 ≤ s.eps) :
    (∀ (n0 n1 : Nat) (w0 w1 : ℚ),
      choose_wait_edge n0 n1 w0 w1 =
        if w1 ≤ w0 then (⟨n0, Direction.WAIT⟩, w0) else (⟨n1, Direction.WAIT⟩, w1))
    ∧ (∀ (m : Map) (wt : UsageTable) (kv : EdgeTime × ℚ),
        sep_viol s m wt kv = SCIPisGT s (sep_entry_lhs m wt kv) 1)
    ∧ (∀ (m : Map) (vars : List PathVar),
        edge_conflicts_check s m vars = SCIPResult.INFEASIBLE ↔
          ∃ (e : Edge) (t : Nat), SCIPisGT s (move_usage_sum s m vars e t) 1 = true) := by
  refine ⟨?_, fun _ _ _ => rfl, fun m vars => check_infeasible_iff s m vars heps⟩
  intro n0 n1 w0 w1
  simp [choose_wait_edge, ge_iff_le]

/-- Witness for C9 on the two-conflict instance. -/
theorem claim_C9_witness :
    edge_conflicts_check sTol exMap varsTwo = SCIPResult.INFEASIBLE :=
  ((claim_C9 sTol (by with_unfolding_all decide)).2.2 exMap varsTwo).mpr
    ⟨⟨20, Direction.EAST⟩, 0, by with_unfolding_all decide⟩

/-- Counterexample to C9 as stated: with weights 0 and half a tolerance, the
code's wait-edge selection picks the second endpoint although its weight is
not tolerance-greater than the first's — a tolerance-aware selection (which
sees a tie and keeps the first endpoint) decides differently, so this
comparison does not go through the tolerance predicates. -/
theorem claim_C9_counterexample :
    choose_wait_edge 0 1 0 (1 / 20) ≠ choose_wait_edge_tol sTol 0 1 0 (1 / 20)
    ∧ SCIPisGT sTol (1 / 20) 0 = false
    ∧ choose_wait_edge 0 1 0 (1 / 20) = (⟨1, Direction.WAIT⟩, 1 / 20)
    ∧ 0 < (1 / 20 : ℚ) := by
  with_unfolding_all decide

end BCP
